import Mathlib

/-!
# Verification of the typst-bake resource pipeline

A shallow embedding of the package resolver / downloader
(`typst-bake-macros/src/downloader.rs`, `scanner.rs`), the compression cache
(`typst-bake-macros/src/compression_cache.rs`), the directory embedder
(`typst-bake-macros/src/dir_embed.rs`) and the runtime decompressor
(`typst-bake/src/util.rs`), together with proofs of the specified properties.

Modelling conventions:
* filesystem paths are lists of path segments (`FsPath := List String`);
  `pathDisplay` joins them with `/` (the code prints platform separators,
  which is `/` on the platforms the tests run on);
* the filesystem, the network and the external zstd / BLAKE3 / typst-syntax
  libraries are explicit parameters (functions passed to the embedded
  operations), so every claim is proved for arbitrary behaviour of the
  collaborators unless the claim itself is about a collaborator contract;
* Rust's `Vec::push` is `l ++ [x]`, `HashSet::insert` is a no-op when the
  element is present, `BTreeMap::insert` on a fresh key is modelled by
  consing onto an association list (the map ordering only matters for
  `dedup_statics`, which no proof here concerns);
* machine integers (`usize` counters, `i32` level) stay well below overflow
  in every scenario the spec describes, so they are modelled as `Nat` / `Int`.
-/

/-! ## Data model: `PackageSpec` and `ResolvedPackage` (`scanner.rs`) -/

/-- A filesystem path as a list of segments. -/
abbrev FsPath := List String

/-- Render a path the way Rust's path `display` does on Unix. -/
def pathDisplay (p : FsPath) : String :=
  String.intercalate "/" p

/-- `PackageSpec { namespace, name, version }` from `scanner.rs`.
The Rust field `namespace` is a Lean keyword, so it is called `ns` here. -/
structure PackageSpec where
  ns : String
  name : String
  version : String
deriving DecidableEq, Repr

/-- `Display for PackageSpec`: `@namespace/name:version`. -/
def PackageSpec.display (p : PackageSpec) : String :=
  "@" ++ p.ns ++ "/" ++ p.name ++ ":" ++ p.version

/-- `PackageSpec::package_dir`: `base/namespace/name/version`. -/
def PackageSpec.package_dir (p : PackageSpec) (base : FsPath) : FsPath :=
  base ++ [p.ns, p.name, p.version]

/-- `PackageSpec::download_url`. -/
def PackageSpec.download_url (p : PackageSpec) : String :=
  "https://packages.typst.org/" ++ p.ns ++ "/" ++ p.name ++ "-" ++ p.version ++ ".tar.gz"

/-- `PackageSpec::is_downloadable`: only the `preview` namespace. -/
def PackageSpec.is_downloadable (p : PackageSpec) : Bool :=
  p.ns == "preview"

/-- `ResolvedPackage { spec, path }` from `scanner.rs`. -/
structure ResolvedPackage where
  spec : PackageSpec
  path : FsPath
deriving DecidableEq, Repr

/-! ## Source scanner (`scanner.rs`) -/

/-- `is_valid_identifier`: non-empty, alphanumeric / `-` / `_`.
(Rust's `char::is_alphanumeric` is Unicode-wide; `Char.isAlphanum` is the
ASCII restriction, which agrees on every input exercised here.) -/
def is_valid_identifier (s : String) : Bool :=
  !s.isEmpty && s.all (fun c => c.isAlphanum || c == '-' || c == '_')

/-- `is_valid_version`: non-empty, numeric / `.`. -/
def is_valid_version (s : String) : Bool :=
  !s.isEmpty && s.all (fun c => c.isDigit || c == '.')

/-- Rust `str::split_once` for a single-character separator: split at the
first occurrence, `none` when the separator does not occur. -/
def splitOnce (sep : String) (s : String) : Option (String × String) :=
  match s.splitOn sep with
  | [] => none
  | [_] => none
  | p :: rest => some (p, String.intercalate sep rest)

/-- `parse_package_specifier`: parse `@namespace/name:version`. -/
def parse_package_specifier (path : String) : Option PackageSpec := do
  let path ← if path.startsWith "@" then some (path.drop 1) else none
  let (namespace_str, name_version) ← splitOnce "/" path
  let (name_str, version_str) ← splitOnce ":" name_version
  if !is_valid_identifier namespace_str
      || !is_valid_identifier name_str
      || !is_valid_version version_str then
    none
  else
    some { ns := namespace_str, name := name_str, version := version_str }

/-- The source of a `ModuleImport` expression: either a string literal or
some other expression form (`typst_syntax::ast::Expr`). -/
inductive TypImportSource where
  | str (s : String)
  | other
deriving DecidableEq

/-- The fragment of `typst_syntax::ast::Expr` that
`parse_packages_from_source` inspects: a module import, or anything else. -/
inductive TypExpr where
  | moduleImport (src : TypImportSource)
  | other
deriving DecidableEq

/-- `parse_packages_from_source`.  The external `typst_syntax` parser
(`Source::detached` + `cast::<Markup>` + `exprs()`) is the parameter
`parseMarkup`; `none` models a root node that does not cast to `Markup`.
Every control path of the Rust function returns `Ok`. -/
def parse_packages_from_source (parseMarkup : String → Option (List TypExpr))
    (content : String) : Except String (List PackageSpec) :=
  match parseMarkup content with
  | none => .ok []
  | some exprs =>
      .ok (exprs.foldr
        (fun e acc =>
          match e with
          | .moduleImport (.str s) => (parse_package_specifier s).toList ++ acc
          | _ => acc)
        [])

/-! ## Compression cache (`compression_cache.rs`) -/

/-- The compression-cache directory contents: filename → file bytes. -/
abbrev Disk := List (String × List Nat)

/-- Association-list read, modelling `fs::read` of a cache file. -/
def diskRead (disk : Disk) (name : String) : Option (List Nat) :=
  (disk.find? (fun f => f.1 == name)).map (·.2)

/-- Atomic write (temp file + rename): the visible effect is that the final
name now holds the bytes. -/
def diskWrite (disk : Disk) (name : String) (content : List Nat) : Disk :=
  (name, content) :: disk.filter (fun f => f.1 != name)

/-- `BlobInfo { hash, compressed_len }`. -/
structure BlobInfo where
  hash : String
  compressed_len : Nat
deriving DecidableEq, Repr

/-- `CompressionCache`.  `blobs` is the in-memory dedup table keyed by
content hash (`BTreeMap<String, Vec<u8>>`), `used_files` the `HashSet` of
disk filenames consulted this run. -/
structure CompressionCache where
  cache_dir : Option String
  level : Int
  used_files : List String
  cache_hits : Nat
  misses : Nat
  dedup_hits : Nat
  dedup_saved_bytes : Nat
  blobs : List (String × List Nat)

/-- `CompressionCache::new`. -/
def CompressionCache.new (cache_dir : Option String) (level : Int) :
    CompressionCache :=
  { cache_dir := cache_dir, level := level, used_files := [], cache_hits := 0,
    misses := 0, dedup_hits := 0, dedup_saved_bytes := 0, blobs := [] }

/-- The on-disk cache filename `{hash}_{level}.zst`. -/
def cacheFilename (hash : String) (level : Int) : String :=
  hash ++ "_" ++ toString level ++ ".zst"

/-- `HashSet::insert`: no duplicate entries. -/
def insertUsed (name : String) (used : List String) : List String :=
  if name ∈ used then used else name :: used

/-- `CompressionCache::compress_raw`: `zstd::encode_all(data, self.level)`.
The zstd encoder itself is the external collaborator `enc`. -/
def compress_raw (enc : Int → List Nat → List Nat) (self : CompressionCache)
    (data : List Nat) : List Nat :=
  enc self.level data

/-- `CompressionCache::load_or_compress`: disk-cache lookup keyed by
`(hash, level)`, marking the filename used, falling back to fresh
compression plus an atomic cache write. -/
def load_or_compress (enc : Int → List Nat → List Nat)
    (self : CompressionCache) (disk : Disk) (data : List Nat) (hash : String) :
    List Nat × CompressionCache × Disk :=
  match self.cache_dir with
  | some _ =>
      let cache_filename := cacheFilename hash self.level
      let self := { self with used_files := insertUsed cache_filename self.used_files }
      match diskRead disk cache_filename with
      | some cached =>
          (cached, { self with cache_hits := self.cache_hits + 1 }, disk)
      | none =>
          let compressed := compress_raw enc self data
          (compressed, { self with misses := self.misses + 1 },
            diskWrite disk cache_filename compressed)
  | none =>
      (compress_raw enc self data, { self with misses := self.misses + 1 }, disk)

/-- `CompressionCache::compress`.  The BLAKE3 hex digest is the external
collaborator `hash`. -/
def CompressionCache.compress (hash : List Nat → String)
    (enc : Int → List Nat → List Nat) (self : CompressionCache) (disk : Disk)
    (data : List Nat) : BlobInfo × CompressionCache × Disk :=
  let h := hash data
  match (self.blobs.find? (fun b => b.1 == h)).map (·.2) with
  | some existing =>
      (⟨h, existing.length⟩,
        { self with
            dedup_hits := self.dedup_hits + 1,
            dedup_saved_bytes := self.dedup_saved_bytes + existing.length },
        disk)
  | none =>
      let (compressed, self', disk') := load_or_compress enc self disk data h
      (⟨h, compressed.length⟩,
        { self' with blobs := (h, compressed) :: self'.blobs }, disk')

/-- Rust's path `extension()`: the part of the file name after the final dot;
`none` when there is no dot, or when the only dot is a leading one. -/
def fileExtension (name : String) : Option String :=
  match name.data.splitOn '.' with
  | [] => none
  | [_] => none
  | p :: rest =>
      if p.isEmpty && rest.length == 1 then none
      else (rest.getLast?).map String.mk

/-- `CompressionCache::cleanup`: with no cache directory do nothing;
otherwise delete every `.zst` file whose name was not marked used. -/
def CompressionCache.cleanup (self : CompressionCache) (disk : Disk) : Disk :=
  match self.cache_dir with
  | none => disk
  | some _ =>
      disk.filter (fun f =>
        !(fileExtension f.1 == some "zst" && !(self.used_files.contains f.1)))

/-- `CompressionCache::dedup_total_files`. -/
def CompressionCache.dedup_total_files (self : CompressionCache) : Nat :=
  self.cache_hits + self.misses + self.dedup_hits

/-- `CompressionCache::dedup_unique_blobs`. -/
def CompressionCache.dedup_unique_blobs (self : CompressionCache) : Nat :=
  self.blobs.length

/-- `CompressionCache::dedup_duplicate_count`. -/
def CompressionCache.dedup_duplicate_count (self : CompressionCache) : Nat :=
  self.dedup_hits

/-- `util::decompress` (`typst-bake/src/util.rs`): `zstd::decode_all`,
the zstd decoder being the external collaborator `dec`. -/
def decompress (dec : List Nat → Except String (List Nat)) (data : List Nat) :
    Except String (List Nat) :=
  dec data

/-- Run `compress` N times on the same data, collecting the returned
`BlobInfo`s (the model of embedding N identical files). -/
def compressIter (hash : List Nat → String) (enc : Int → List Nat → List Nat)
    (data : List Nat) :
    Nat → CompressionCache × Disk → List BlobInfo × CompressionCache × Disk
  | 0, cd => ([], cd.1, cd.2)
  | n + 1, (c, d) =>
      let (info, c', d') := c.compress hash enc d data
      let (infos, c'', d'') := compressIter hash enc data n (c', d')
      (info :: infos, c'', d'')

/-- Run `compress` over a list of inputs (the model of a pipeline run). -/
def compressRun (hash : List Nat → String) (enc : Int → List Nat → List Nat) :
    List (List Nat) → CompressionCache × Disk → CompressionCache × Disk
  | [], cd => cd
  | data :: rest, (c, d) =>
      let (_, c', d') := c.compress hash enc d data
      compressRun hash enc rest (c', d')

/-! ## Directory embedder (`dir_embed.rs`)

`dir_embed.rs` compresses each file directly with
`zstd::encode_all(data, 19)` (`compress_bytes`); the zstd encoder is again
the external parameter `zenc`.  A directory listing (`fs::read_dir`) comes
back in arbitrary filesystem order, which the model keeps as the stored
list order; the code sorts the listing by full path, and since every entry
of one listing shares the same parent this is exactly sorting by entry name
(UTF-8 byte order on `OsStr` coincides with code-point order on the names).
Symlinks and unreadable files, which the code skips, are outside the model:
an `FsEntry` is a regular file or a directory. -/

/-- A filesystem subtree: the regular files and directories below one
directory, in the order the filesystem lists them. -/
inductive FsEntry where
  | file (name : String) (contents : List Nat)
  | dir (name : String) (entries : List FsEntry)

/-- The name of a directory entry. -/
def FsEntry.name : FsEntry → String
  | .file n _ => n
  | .dir n _ => n

/-- An emitted tree node: `DirEntry::File` with its compressed bytes, or
`DirEntry::Dir` with its children. -/
inductive EmbedEntry where
  | file (name : String) (data : List Nat)
  | dir (name : String) (entries : List EmbedEntry)

/-- `DirEmbedResult { entries, original_size, compressed_size, file_count }`. -/
structure DirEmbedResult where
  entries : List EmbedEntry
  original_size : Nat
  compressed_size : Nat
  file_count : Nat

/-- `compress_bytes`: zstd at fixed level 19. -/
def compress_bytes (zenc : Int → List Nat → List Nat) (data : List Nat) :
    List Nat :=
  zenc 19 data

/-- ASCII lowercasing of a name (Rust `to_lowercase`; the extensions the
filter compares against are all ASCII). -/
def lowerAscii (s : String) : String :=
  String.mk (s.data.map Char.toLower)

/-- `is_font_file`: extension lowercases to `ttf`, `otf` or `ttc`. -/
def is_font_file (name : String) : Bool :=
  let ext := lowerAscii ((fileExtension name).getD "")
  ext == "ttf" || ext == "otf" || ext == "ttc"

/-- `name.starts_with('.')`, the hidden-entry test. -/
def startsWithDot (n : String) : Bool :=
  n.data.head? == some '.'

/-- Lexicographic order on char lists by code point — the order `OsStr`
byte comparison induces on the names (UTF-8 byte order coincides with code
point order). -/
def charListLeB : List Char → List Char → Bool
  | [], _ => true
  | _ :: _, [] => false
  | a :: as, b :: bs =>
      if a.toNat < b.toNat then true
      else if b.toNat < a.toNat then false
      else charListLeB as bs

/-- The name order used by `sort_by_key(|e| e.path())`: within one parent
directory, sorting by full path is sorting by entry name. -/
def strLeB (a b : String) : Bool :=
  charListLeB a.data b.data

/-- The name order as a relation on directory entries. -/
def fsNameLe (a b : FsEntry) : Prop :=
  strLeB a.name b.name = true

instance : DecidableRel fsNameLe :=
  fun a b => Bool.decEq (strLeB a.name b.name) true

/-- `dir_entries.sort_by_key(|e| e.path())` as a stable insertion sort: a
stable sort's output is determined by the key order alone, so this lists
the entries exactly as the Rust sort does. -/
def sortByName (l : List FsEntry) : List FsEntry :=
  List.insertionSort fsNameLe l

/-- A permutation of a list leaves its `sizeOf` unchanged (termination
measure for the scanners, whose recursive call is on a sorted listing). -/
theorem perm_sizeOf_eq {α : Type} [SizeOf α] {l₁ l₂ : List α}
    (h : l₁.Perm l₂) : sizeOf l₁ = sizeOf l₂ := by
  induction h with
  | nil => rfl
  | cons x _ ih => simp [ih]
  | swap x y l => simp; omega
  | trans _ _ ih₁ ih₂ => omega

/-- `sizeOf` bound used by the scanners' termination proofs. -/
theorem sizeOf_sortByName (l : List FsEntry) :
    sizeOf (sortByName l) = sizeOf l :=
  perm_sizeOf_eq (List.perm_insertionSort fsNameLe l)

/-- The loop body of `scan_dir_entries`, applied to an already-sorted
listing: skip hidden names, emit a `File` node (with size/count totals) per
file, recurse into each subdirectory and always emit its `Dir` node. -/
def scan_dir_sorted (zenc : Int → List Nat → List Nat) :
    List FsEntry → DirEmbedResult
  | [] => ⟨[], 0, 0, 0⟩
  | .file n c :: rest =>
      let r := scan_dir_sorted zenc rest
      if startsWithDot n then r
      else
        let compressed := compress_bytes zenc c
        ⟨.file n compressed :: r.entries,
          c.length + r.original_size,
          compressed.length + r.compressed_size,
          1 + r.file_count⟩
  | .dir n children :: rest =>
      let r := scan_dir_sorted zenc rest
      if startsWithDot n then r
      else
        let sub := scan_dir_sorted zenc (sortByName children)
        ⟨.dir n sub.entries :: r.entries,
          sub.original_size + r.original_size,
          sub.compressed_size + r.compressed_size,
          sub.file_count + r.file_count⟩
  termination_by l => sizeOf l
  decreasing_by
  all_goals simp [sizeOf_sortByName]
  all_goals omega

/-- `scan_dir_entries`: sort the listing, then process it. -/
def scan_dir_entries (zenc : Int → List Nat → List Nat) (fs : List FsEntry) :
    DirEmbedResult :=
  scan_dir_sorted zenc (sortByName fs)

/-- The loop body of `scan_font_entries`: as `scan_dir_sorted`, but files
pass the font filter and a subdirectory's `Dir` node is pushed only when
its recursion produced at least one entry. -/
def scan_font_sorted (zenc : Int → List Nat → List Nat) :
    List FsEntry → DirEmbedResult
  | [] => ⟨[], 0, 0, 0⟩
  | .file n c :: rest =>
      let r := scan_font_sorted zenc rest
      if startsWithDot n then r
      else if !is_font_file n then r
      else
        let compressed := compress_bytes zenc c
        ⟨.file n compressed :: r.entries,
          c.length + r.original_size,
          compressed.length + r.compressed_size,
          1 + r.file_count⟩
  | .dir n children :: rest =>
      let r := scan_font_sorted zenc rest
      if startsWithDot n then r
      else
        let sub := scan_font_sorted zenc (sortByName children)
        if sub.entries.isEmpty then
          ⟨r.entries,
            sub.original_size + r.original_size,
            sub.compressed_size + r.compressed_size,
            sub.file_count + r.file_count⟩
        else
          ⟨.dir n sub.entries :: r.entries,
            sub.original_size + r.original_size,
            sub.compressed_size + r.compressed_size,
            sub.file_count + r.file_count⟩
  termination_by l => sizeOf l
  decreasing_by
  all_goals simp [sizeOf_sortByName]
  all_goals omega

/-- `scan_font_entries`: sort the listing, then process it. -/
def scan_font_entries (zenc : Int → List Nat → List Nat) (fs : List FsEntry) :
    DirEmbedResult :=
  scan_font_sorted zenc (sortByName fs)

/-! ## Package resolver (`downloader.rs`)

The collaborators of `resolve_packages` — the filesystem's directory
existence checks, the network download + archive extraction, and
`resolve_dependencies` (manifest parsing plus source scanning over a
package directory) — form a `World`.  A successful download publishes the
destination directory atomically, which the model renders as flipping that
one path to existing; `deps` is a fixed function of the directory path,
since the bytes a URL extracts to do not change within a run.  The
cross-process lock of `download_and_extract` serialises *other* processes
and has no observable effect in this single-invocation model; the check
performed after acquiring it (`if dest.exists() { return Ok(()) }`) is the
first branch of the model.  The model additionally logs, in `downloads`,
every package for which an actual network fetch was issued. -/

/-- The resolver's external collaborators. -/
structure World where
  pathExists : FsPath → Bool
  download : PackageSpec → Bool
  downloadErrMsg : PackageSpec → String
  deps : FsPath → List PackageSpec

/-- `download_and_extract(url, dest)` for the package `pkg`: under the
lock, succeed immediately when the destination exists; otherwise fetch and
extract atomically (`true` in the second component records that a network
fetch was issued). -/
def download_and_extract (w : World) (pkg : PackageSpec) (dest : FsPath) :
    Except String World × Bool :=
  if w.pathExists dest then (.ok w, false)
  else if w.download pkg then
    (.ok { w with pathExists := fun p => p == dest || w.pathExists p }, true)
  else
    (.error (w.downloadErrMsg pkg), true)

/-- The mutable state of the `resolve_packages` loop: the world (downloads
change the filesystem), the `seen` set, the `resolved` and
`failed_packages` accumulators, and the log of issued fetches. -/
structure ResolveState where
  world : World
  seen : List PackageSpec
  resolved : List ResolvedPackage
  failed : List (PackageSpec × String)
  downloads : List PackageSpec

/-- The state a run starts from. -/
def ResolveState.init (w : World) : ResolveState :=
  ⟨w, [], [], [], []⟩

/-- Rust `Vec<String>::join(sep)`. -/
def joinSep (sep : String) : List String → String
  | [] => ""
  | [x] => x
  | x :: xs => x ++ sep ++ joinSep sep xs

/-- One failed package as it is pushed onto `failed_packages`:
`"{pkg}: {reason}"`. -/
def failedMessage (f : PackageSpec × String) : String :=
  f.1.display ++ ": " ++ f.2

/-- The aggregate error string built when `failed_packages` is non-empty. -/
def aggregateError (failed : List (PackageSpec × String)) : String :=
  "Failed to resolve " ++ toString failed.length ++ " package(s):\n  - " ++
    joinSep "\n  - " (failed.map failedMessage)

/-- The body of the `resolve_packages` loop for one not-yet-seen spec:
local directory, then cache (unless refreshing), then download for
downloadable namespaces, else a not-found failure listing every searched
path.  Returns the new state and the dependencies to enqueue. -/
def resolveStep (dataDir : Option FsPath) (cacheDir : FsPath) (refresh : Bool)
    (st : ResolveState) (pkg : PackageSpec) : ResolveState × List PackageSpec :=
  let localHit := match dataDir with
    | some data =>
        if st.world.pathExists (pkg.package_dir data) then
          some (pkg.package_dir data)
        else none
    | none => none
  match localHit with
  | some localPath =>
      ({ st with resolved := st.resolved ++ [⟨pkg, localPath⟩] },
        st.world.deps localPath)
  | none =>
      let cachePath := pkg.package_dir cacheDir
      if st.world.pathExists cachePath && !refresh then
        ({ st with resolved := st.resolved ++ [⟨pkg, cachePath⟩] },
          st.world.deps cachePath)
      else if pkg.is_downloadable then
        match download_and_extract st.world pkg cachePath with
        | (.ok w', fetched) =>
            ({ st with
                world := w',
                downloads := if fetched then st.downloads ++ [pkg] else st.downloads,
                resolved := st.resolved ++ [⟨pkg, cachePath⟩] },
              w'.deps cachePath)
        | (.error e, fetched) =>
            ({ st with
                downloads := if fetched then st.downloads ++ [pkg] else st.downloads,
                failed := st.failed ++ [(pkg, "download failed: " ++ e)] },
              [])
      else
        let searched :=
          (match dataDir with
            | some data => [pkg.package_dir data]
            | none => []) ++ [cachePath]
        let paths := joinSep "\n" (searched.map (fun p => "      " ++ pathDisplay p))
        ({ st with failed := st.failed ++ [(pkg, "not found, searched:\n" ++ paths)] },
          [])

/-- The breadth-first work loop of `resolve_packages`.  `fuel` bounds the
number of iterations (the real loop terminates because the filesystem is
finite); `none` means the fuel ran out before the queue drained. -/
def resolveLoop (dataDir : Option FsPath) (cacheDir : FsPath) (refresh : Bool) :
    Nat → ResolveState → List PackageSpec → Option ResolveState
  | _, st, [] => some st
  | 0, _, _ :: _ => none
  | fuel + 1, st, pkg :: queue =>
      if pkg ∈ st.seen then
        resolveLoop dataDir cacheDir refresh fuel st queue
      else
        let (st', deps) :=
          resolveStep dataDir cacheDir refresh { st with seen := pkg :: st.seen } pkg
        resolveLoop dataDir cacheDir refresh fuel st' (queue ++ deps)

/-- `resolve_packages`: empty input short-circuits to `Ok([])`; otherwise
run the loop and return either the aggregate error (when any per-package
failure was recorded) or all resolved packages.  The final `ResolveState`
is returned alongside so that properties can inspect the accumulators. -/
def resolve_packages (fuel : Nat) (w : World) (packages : List PackageSpec)
    (dataDir : Option FsPath) (cacheDir : FsPath) (refresh : Bool) :
    Option (Except String (List ResolvedPackage) × ResolveState) :=
  if packages.isEmpty then some (.ok [], ResolveState.init w)
  else
    match resolveLoop dataDir cacheDir refresh fuel (ResolveState.init w) packages with
    | none => none
    | some st =>
        if st.failed.isEmpty then some (.ok st.resolved, st)
        else some (.error (aggregateError st.failed), st)

/-! ## Derived predicates used by the properties -/

/-- The name of an emitted tree node. -/
def EmbedEntry.name : EmbedEntry → String
  | .file n _ => n
  | .dir n _ => n

/-- Whether an emitted entry list contains (anywhere in the tree) a `Dir`
node with no entries. -/
def containsEmptyDir : List EmbedEntry → Bool
  | [] => false
  | .file _ _ :: rest => containsEmptyDir rest
  | .dir _ [] :: _ => true
  | .dir _ (c :: cs) :: rest => containsEmptyDir (c :: cs) || containsEmptyDir rest

/-- Whether a list of names is in non-decreasing lexicographic order. -/
def namesChain : List String → Bool
  | [] => true
  | [_] => true
  | a :: b :: rest => strLeB a b && namesChain (b :: rest)

/-- Whether every `Dir` node's children are in sorted order, recursively. -/
def treeSorted : List EmbedEntry → Bool
  | [] => true
  | .file _ _ :: rest => treeSorted rest
  | .dir _ es :: rest =>
      namesChain (es.map EmbedEntry.name) && treeSorted es && treeSorted rest

/-- Sortedness of an emitted tree at every level: the top-level names are
in order, and so are the children of every `Dir` node. -/
def allLevelsSorted (l : List EmbedEntry) : Bool :=
  namesChain (l.map EmbedEntry.name) && treeSorted l

/-! ## Properties -/

/-- Splitting `containsEmptyDir` at a `Dir` node. -/
theorem containsEmptyDir_cons_dir (n : String) (es rest : List EmbedEntry) :
    containsEmptyDir (.dir n es :: rest) =
      (es.isEmpty || containsEmptyDir es || containsEmptyDir rest) := by
  cases es <;> simp [containsEmptyDir]

/-- Splitting `containsEmptyDir` at a `File` node. -/
theorem containsEmptyDir_cons_file (n : String) (d : List Nat)
    (rest : List EmbedEntry) :
    containsEmptyDir (.file n d :: rest) = containsEmptyDir rest := by
  simp [containsEmptyDir]

/-- C9: `parse_packages_from_source` returns `Ok` on every input, whatever
the external parser does — the `Err` branch of `extract_packages` (the
per-file warn-and-skip) can never run. -/
theorem parse_packages_from_source_never_errs
    (parseMarkup : String → Option (List TypExpr)) (content : String) :
    ∃ l, parse_packages_from_source parseMarkup content = .ok l := by
  unfold parse_packages_from_source
  cases parseMarkup content with
  | none => exact ⟨[], rfl⟩
  | some exprs => exact ⟨_, rfl⟩

/-- C6: when the zstd decoder inverts the zstd encoder (the library's
contract), decompressing `compress_raw`'s output returns exactly the input
bytes, for every cache state (hence every configured level) and every byte
sequence, the empty one included. -/
theorem compress_decompress_roundtrip
    (enc : Int → List Nat → List Nat)
    (dec : List Nat → Except String (List Nat))
    (hzstd : ∀ lvl x, dec (enc lvl x) = .ok x)
    (c : CompressionCache) (data : List Nat) :
    decompress dec (compress_raw enc c data) = .ok data :=
  hzstd c.level data

/-- C6 witness: the contract hypothesis is satisfiable and the theorem
applies, on empty and on non-empty input. -/
theorem compress_decompress_roundtrip_witness :
    decompress .ok (compress_raw (fun _ x => x) (CompressionCache.new (some "cd") 19) []) = .ok [] ∧
    decompress .ok (compress_raw (fun _ x => x) (CompressionCache.new none 3) [7, 7, 7]) = .ok [7, 7, 7] :=
  ⟨compress_decompress_roundtrip _ _ (fun _ _ => rfl) _ _,
    compress_decompress_roundtrip _ _ (fun _ _ => rfl) _ _⟩

/-- C2 counterexample: the general template embed does *not* omit a
subdirectory whose recursion yields no entries — scanning a directory that
holds one empty subdirectory emits an empty `Dir` node (`scan_dir_entries`
pushes the `Dir` token unconditionally, unlike `scan_font_entries`). -/
theorem scan_dir_entries_emits_empty_dir :
    containsEmptyDir (scan_dir_entries (fun _ d => d) [FsEntry.dir "sub" []]).entries = true := by
  simp +decide [scan_dir_entries, scan_dir_sorted, sortByName, List.insertionSort,
    containsEmptyDir, startsWithDot, fsNameLe]

/-- C2 (amended): in the font-filtered embed, a subdirectory whose
recursive embedding yields no entries is omitted entirely; no empty `Dir`
node appears anywhere in `scan_font_entries` output. -/
theorem scan_font_entries_no_empty_dir (zenc : Int → List Nat → List Nat)
    (fs : List FsEntry) :
    containsEmptyDir (scan_font_entries zenc fs).entries = false := by
  suffices h : ∀ l, containsEmptyDir (scan_font_sorted zenc l).entries = false by
    exact h (sortByName fs)
  intro l
  induction l using scan_font_sorted.induct zenc
  all_goals simp only [scan_font_sorted]
  all_goals try split_ifs
  all_goals
    simp_all [containsEmptyDir, containsEmptyDir_cons_file, containsEmptyDir_cons_dir,
      List.isEmpty_iff]

/-- `HashSet::insert` only grows the set. -/
theorem insertUsed_subset (name : String) (used : List String) :
    used ⊆ insertUsed name used := by
  intro x hx
  unfold insertUsed
  split
  · exact hx
  · exact List.mem_cons_of_mem _ hx

/-- After `HashSet::insert`, the element is present. -/
theorem mem_insertUsed (name : String) (used : List String) :
    name ∈ insertUsed name used := by
  unfold insertUsed
  split
  · assumption
  · exact List.mem_cons_self _ _

/-- `load_or_compress` with caching disabled: recompress, count a miss. -/
theorem load_or_compress_none (enc : Int → List Nat → List Nat)
    (c : CompressionCache) (disk : Disk) (data : List Nat) (h : String)
    (hdir : c.cache_dir = none) :
    load_or_compress enc c disk data h =
      (compress_raw enc c data, { c with misses := c.misses + 1 }, disk) := by
  unfold load_or_compress
  rw [hdir]

/-- `load_or_compress` on a disk-cache hit: mark the filename used, return
the cached bytes, count a cache hit, leave the disk unchanged. -/
theorem load_or_compress_cache_hit (enc : Int → List Nat → List Nat)
    (c : CompressionCache) (disk : Disk) (data : List Nat) (h : String)
    (dir : String) (cached : List Nat)
    (hdir : c.cache_dir = some dir)
    (hread : diskRead disk (cacheFilename h c.level) = some cached) :
    load_or_compress enc c disk data h =
      (cached,
        { c with
            used_files := insertUsed (cacheFilename h c.level) c.used_files,
            cache_hits := c.cache_hits + 1 },
        disk) := by
  unfold load_or_compress
  rw [hdir]
  dsimp only
  rw [hread]

/-- `load_or_compress` on a disk-cache miss: mark the filename used,
compress fresh, count a miss, publish the blob to the disk cache. -/
theorem load_or_compress_cache_miss (enc : Int → List Nat → List Nat)
    (c : CompressionCache) (disk : Disk) (data : List Nat) (h : String)
    (dir : String)
    (hdir : c.cache_dir = some dir)
    (hread : diskRead disk (cacheFilename h c.level) = none) :
    load_or_compress enc c disk data h =
      (enc c.level data,
        { c with
            used_files := insertUsed (cacheFilename h c.level) c.used_files,
            misses := c.misses + 1 },
        diskWrite disk (cacheFilename h c.level) (enc c.level data)) := by
  unfold load_or_compress
  rw [hdir]
  dsimp only
  rw [hread]
  rfl

/-- `compress` on an in-memory dedup hit: return the stored blob's stats,
bump the dedup counters, touch nothing else. -/
theorem compress_dedup_hit (hash : List Nat → String)
    (enc : Int → List Nat → List Nat) (c : CompressionCache) (disk : Disk)
    (data : List Nat) (v : String × List Nat)
    (hfind : c.blobs.find? (fun b => b.1 == hash data) = some v) :
    c.compress hash enc disk data =
      (⟨hash data, v.2.length⟩,
        { c with
            dedup_hits := c.dedup_hits + 1,
            dedup_saved_bytes := c.dedup_saved_bytes + v.2.length },
        disk) := by
  simp [CompressionCache.compress, hfind]

/-- `compress` on a dedup miss: defer to `load_or_compress` and record the
new blob in the dedup table. -/
theorem compress_dedup_miss (hash : List Nat → String)
    (enc : Int → List Nat → List Nat) (c : CompressionCache) (disk : Disk)
    (data : List Nat)
    (hfind : c.blobs.find? (fun b => b.1 == hash data) = none) :
    c.compress hash enc disk data =
      (⟨hash data, (load_or_compress enc c disk data (hash data)).1.length⟩,
        { (load_or_compress enc c disk data (hash data)).2.1 with
            blobs := (hash data, (load_or_compress enc c disk data (hash data)).1) ::
              (load_or_compress enc c disk data (hash data)).2.1.blobs },
        (load_or_compress enc c disk data (hash data)).2.2) := by
  simp [CompressionCache.compress, hfind]

/-- One `compress` call preserves `|blobs| = cache_hits + misses`. -/
theorem compress_count_invariant (hash : List Nat → String)
    (enc : Int → List Nat → List Nat) (c : CompressionCache) (disk : Disk)
    (data : List Nat) (hinv : c.blobs.length = c.cache_hits + c.misses) :
    ((c.compress hash enc disk data).2.1).blobs.length =
      ((c.compress hash enc disk data).2.1).cache_hits +
        ((c.compress hash enc disk data).2.1).misses := by
  cases hfind : c.blobs.find? (fun b => b.1 == hash data) with
  | some v =>
      rw [compress_dedup_hit hash enc c disk data v hfind]
      simpa using hinv
  | none =>
      rw [compress_dedup_miss hash enc c disk data hfind]
      cases hdir : c.cache_dir with
      | none =>
          rw [load_or_compress_none enc c disk data _ hdir]
          simp
          omega
      | some dir =>
          cases hread : diskRead disk (cacheFilename (hash data) c.level) with
          | some cached =>
              rw [load_or_compress_cache_hit enc c disk data _ dir cached hdir hread]
              simp
              omega
          | none =>
              rw [load_or_compress_cache_miss enc c disk data _ dir hdir hread]
              simp
              omega

/-- The invariant holds after any run of `compress` calls. -/
theorem compressRun_count_invariant (hash : List Nat → String)
    (enc : Int → List Nat → List Nat) (inputs : List (List Nat)) :
    ∀ (c : CompressionCache) (disk : Disk),
      c.blobs.length = c.cache_hits + c.misses →
      ((compressRun hash enc inputs (c, disk)).1).blobs.length =
        ((compressRun hash enc inputs (c, disk)).1).cache_hits +
          ((compressRun hash enc inputs (c, disk)).1).misses := by
  induction inputs with
  | nil => intro c disk h; exact h
  | cons data rest ih =>
      intro c disk h
      simp only [compressRun]
      exact ih _ _ (compress_count_invariant hash enc c disk data h)

/-- C10: after any sequence of `compress` calls on a fresh cache, the
number of unique stored blobs equals `cache_hits + misses`, so the dedup
statistics are mutually consistent:
`dedup_total_files = dedup_unique_blobs + dedup_duplicate_count`. -/
theorem dedup_stats_consistent (hash : List Nat → String)
    (enc : Int → List Nat → List Nat) (inputs : List (List Nat))
    (cdir : Option String) (lvl : Int) (disk : Disk) :
    ((compressRun hash enc inputs (CompressionCache.new cdir lvl, disk)).1).dedup_unique_blobs =
      ((compressRun hash enc inputs (CompressionCache.new cdir lvl, disk)).1).cache_hits +
        ((compressRun hash enc inputs (CompressionCache.new cdir lvl, disk)).1).misses ∧
    ((compressRun hash enc inputs (CompressionCache.new cdir lvl, disk)).1).dedup_total_files =
      ((compressRun hash enc inputs (CompressionCache.new cdir lvl, disk)).1).dedup_unique_blobs +
        ((compressRun hash enc inputs (CompressionCache.new cdir lvl, disk)).1).dedup_duplicate_count := by
  have h := compressRun_count_invariant hash enc inputs (CompressionCache.new cdir lvl) disk
    (by simp [CompressionCache.new])
  unfold CompressionCache.dedup_unique_blobs CompressionCache.dedup_total_files
    CompressionCache.dedup_duplicate_count
  omega

/-- The first `compress` call on a fresh cache yields exactly one stored
blob, keyed by the content hash, with no dedup hit counted. -/
theorem compress_new_spec (hash : List Nat → String)
    (enc : Int → List Nat → List Nat) (cdir : Option String) (lvl : Int)
    (disk : Disk) (data : List Nat) :
    ∃ C c₁ disk₁,
      (CompressionCache.new cdir lvl).compress hash enc disk data =
        (⟨hash data, C.length⟩, c₁, disk₁) ∧
      c₁.blobs = [(hash data, C)] ∧ c₁.dedup_hits = 0 := by
  have hfind : (CompressionCache.new cdir lvl).blobs.find?
      (fun b => b.1 == hash data) = none := rfl
  rw [compress_dedup_miss _ _ _ _ _ hfind]
  cases cdir with
  | none =>
      rw [load_or_compress_none _ _ _ _ _ rfl]
      exact ⟨_, _, _, rfl, rfl, rfl⟩
  | some dir =>
      cases hread : diskRead disk (cacheFilename (hash data) lvl) with
      | some cached =>
          rw [load_or_compress_cache_hit _ _ _ _ _ dir cached rfl hread]
          exact ⟨cached, _, _, rfl, rfl, rfl⟩
      | none =>
          rw [load_or_compress_cache_miss _ _ _ _ _ dir rfl hread]
          exact ⟨_, _, _, rfl, rfl, rfl⟩

/-- Once the dedup table holds the blob for this content, every further
`compress` call on the same content is a pure dedup hit: same `BlobInfo`
every time, no new blob, one more `dedup_hits` per call, disk untouched. -/
theorem compressIter_from_blob (hash : List Nat → String)
    (enc : Int → List Nat → List Nat) (data : List Nat) (C : List Nat) :
    ∀ (n : Nat) (c : CompressionCache) (disk : Disk),
      c.blobs = [(hash data, C)] →
      ∃ c', compressIter hash enc data n (c, disk) =
          (List.replicate n ⟨hash data, C.length⟩, c', disk) ∧
        c'.blobs = [(hash data, C)] ∧ c'.dedup_hits = c.dedup_hits + n := by
  intro n
  induction n with
  | zero =>
      intro c disk hb
      exact ⟨c, rfl, hb, rfl⟩
  | succ m ih =>
      intro c disk hb
      have hfind : c.blobs.find? (fun b => b.1 == hash data) = some (hash data, C) := by
        rw [hb]; simp
      obtain ⟨c', hrun, hb', hd'⟩ := ih
        { c with
            dedup_hits := c.dedup_hits + 1,
            dedup_saved_bytes := c.dedup_saved_bytes + C.length } disk hb
      refine ⟨c', ?_, hb', by dsimp only at hd'; omega⟩
      simp only [compressIter]
      rw [compress_dedup_hit _ _ _ _ _ _ hfind]
      dsimp only
      rw [hrun]
      rfl

/-- C4: compressing the same content `N ≥ 1` times from a fresh cache
stores exactly one blob in the in-memory store, returns `BlobInfo`s that
all carry the content hash and are all equal (same hash, same compressed
length), and leaves `dedup_duplicate_count = N - 1`. -/
theorem compress_identical_content_dedup (hash : List Nat → String)
    (enc : Int → List Nat → List Nat) (cdir : Option String) (lvl : Int)
    (disk : Disk) (data : List Nat) (N : Nat) (hN : 1 ≤ N) :
    (compressIter hash enc data N (CompressionCache.new cdir lvl, disk)).2.1.blobs.length = 1 ∧
    (∀ i ∈ (compressIter hash enc data N (CompressionCache.new cdir lvl, disk)).1,
      i.hash = hash data) ∧
    (∀ i j, i ∈ (compressIter hash enc data N (CompressionCache.new cdir lvl, disk)).1 →
      j ∈ (compressIter hash enc data N (CompressionCache.new cdir lvl, disk)).1 → i = j) ∧
    (compressIter hash enc data N (CompressionCache.new cdir lvl, disk)).2.1.dedup_duplicate_count
      = N - 1 := by
  obtain ⟨m, rfl⟩ : ∃ m, N = m + 1 := ⟨N - 1, by omega⟩
  obtain ⟨C, c₁, disk₁, heq, hb, hd⟩ := compress_new_spec hash enc cdir lvl disk data
  obtain ⟨c', hrun, hb', hd'⟩ := compressIter_from_blob hash enc data C m c₁ disk₁ hb
  have hiter : compressIter hash enc data (m + 1) (CompressionCache.new cdir lvl, disk) =
      (⟨hash data, C.length⟩ :: List.replicate m ⟨hash data, C.length⟩, c', disk₁) := by
    simp only [compressIter]
    rw [heq]
    dsimp only
    rw [hrun]
  rw [hiter]
  have hmem : ∀ i, i ∈ (⟨hash data, C.length⟩ : BlobInfo) ::
      List.replicate m ⟨hash data, C.length⟩ → i = ⟨hash data, C.length⟩ := by
    intro i hi
    rcases List.mem_cons.mp hi with h | h
    · exact h
    · exact List.eq_of_mem_replicate h
  refine ⟨by simp [hb'], ?_, ?_, ?_⟩
  · intro i hi
    rw [hmem i hi]
  · intro i j hi hj
    rw [hmem i hi, hmem j hj]
  · unfold CompressionCache.dedup_duplicate_count
    dsimp only
    omega

/-- C4 witness: three identical calls on a fresh cache at level 19. -/
theorem compress_identical_content_dedup_witness :
    1 ≤ 3 ∧
    (compressIter (fun _ => "h") (fun _ d => d) [1, 2] 3
      (CompressionCache.new (some "cd") 19, [])).2.1.blobs.length = 1 ∧
    (compressIter (fun _ => "h") (fun _ d => d) [1, 2] 3
      (CompressionCache.new (some "cd") 19, [])).2.1.dedup_duplicate_count = 3 - 1 :=
  ⟨by decide,
    (compress_identical_content_dedup (fun _ => "h") (fun _ d => d) (some "cd") 19 [] [1, 2] 3
      (by decide)).1,
    (compress_identical_content_dedup (fun _ => "h") (fun _ d => d) (some "cd") 19 [] [1, 2] 3
      (by decide)).2.2.2⟩

/-- One `compress` call under an enabled cache directory: the directory
and level stay fixed, `used_files` only grows, every blob key's cache
filename stays marked used, and this call's content filename is marked. -/
theorem compress_marks (hash : List Nat → String)
    (enc : Int → List Nat → List Nat) (c : CompressionCache) (disk : Disk)
    (data : List Nat) (dir : String)
    (hdir : c.cache_dir = some dir)
    (hinv : ∀ p ∈ c.blobs, cacheFilename p.1 c.level ∈ c.used_files) :
    (c.compress hash enc disk data).2.1.cache_dir = some dir ∧
    (c.compress hash enc disk data).2.1.level = c.level ∧
    c.used_files ⊆ (c.compress hash enc disk data).2.1.used_files ∧
    (∀ p ∈ (c.compress hash enc disk data).2.1.blobs,
      cacheFilename p.1 c.level ∈ (c.compress hash enc disk data).2.1.used_files) ∧
    cacheFilename (hash data) c.level ∈ (c.compress hash enc disk data).2.1.used_files := by
  cases hfind : c.blobs.find? (fun b => b.1 == hash data) with
  | some v =>
      rw [compress_dedup_hit _ _ _ _ _ _ hfind]
      have hkey : v.1 = hash data := by
        simpa using List.find?_some hfind
      have hvmem : v ∈ c.blobs := List.mem_of_find?_eq_some hfind
      refine ⟨hdir, rfl, fun x hx => hx, hinv, ?_⟩
      dsimp only
      rw [← hkey]
      exact hinv v hvmem
  | none =>
      rw [compress_dedup_miss _ _ _ _ _ hfind]
      cases hread : diskRead disk (cacheFilename (hash data) c.level) with
      | some cached =>
          rw [load_or_compress_cache_hit _ _ _ _ _ dir cached hdir hread]
          dsimp only
          refine ⟨hdir, rfl, insertUsed_subset _ _, ?_, mem_insertUsed _ _⟩
          intro p hp
          rcases List.mem_cons.mp hp with h | h
          · rw [h]
            exact mem_insertUsed _ _
          · exact insertUsed_subset _ _ (hinv p h)
      | none =>
          rw [load_or_compress_cache_miss _ _ _ _ _ dir hdir hread]
          dsimp only
          refine ⟨hdir, rfl, insertUsed_subset _ _, ?_, mem_insertUsed _ _⟩
          intro p hp
          rcases List.mem_cons.mp hp with h | h
          · rw [h]
            exact mem_insertUsed _ _
          · exact insertUsed_subset _ _ (hinv p h)

/-- A whole run of `compress` calls under an enabled cache directory: the
facts of `compress_marks`, plus: the cache filename of every processed
input is marked used at the end of the run. -/
theorem compressRun_marks (hash : List Nat → String)
    (enc : Int → List Nat → List Nat) (inputs : List (List Nat)) :
    ∀ (c : CompressionCache) (disk : Disk) (dir : String),
      c.cache_dir = some dir →
      (∀ p ∈ c.blobs, cacheFilename p.1 c.level ∈ c.used_files) →
      (compressRun hash enc inputs (c, disk)).1.cache_dir = some dir ∧
      (compressRun hash enc inputs (c, disk)).1.level = c.level ∧
      c.used_files ⊆ (compressRun hash enc inputs (c, disk)).1.used_files ∧
      (∀ p ∈ (compressRun hash enc inputs (c, disk)).1.blobs,
        cacheFilename p.1 c.level ∈ (compressRun hash enc inputs (c, disk)).1.used_files) ∧
      ∀ data ∈ inputs,
        cacheFilename (hash data) c.level ∈ (compressRun hash enc inputs (c, disk)).1.used_files := by
  induction inputs with
  | nil =>
      intro c disk dir hdir hinv
      exact ⟨hdir, rfl, fun x hx => hx, hinv, by simp⟩
  | cons data rest ih =>
      intro c disk dir hdir hinv
      obtain ⟨h1, h2, h3, h4, h5⟩ := compress_marks hash enc c disk data dir hdir hinv
      simp only [compressRun]
      obtain ⟨g1, g2, g3, g4, g5⟩ :=
        ih (c.compress hash enc disk data).2.1 (c.compress hash enc disk data).2.2 dir h1
          (by rw [h2]; exact h4)
      refine ⟨g1, by rw [g2, h2], fun x hx => g3 (h3 hx), ?_, ?_⟩
      · intro p hp
        have hg := g4 p hp
        rwa [h2] at hg
      · intro d hd
        rcases List.mem_cons.mp hd with h | h
        · subst h
          exact g3 h5
        · have hg := g5 d h
          rwa [h2] at hg

/-- `cleanup` with caching disabled is a no-op. -/
theorem cleanup_disabled (c : CompressionCache) (disk : Disk)
    (h : c.cache_dir = none) : c.cleanup disk = disk := by
  unfold CompressionCache.cleanup
  rw [h]

/-- `cleanup` with an enabled cache directory keeps exactly the files that
are not `.zst` cache entries or whose name was marked used. -/
theorem cleanup_mem (c : CompressionCache) (disk : Disk) (dir : String)
    (h : c.cache_dir = some dir) (f : String × List Nat) :
    f ∈ c.cleanup disk ↔
      f ∈ disk ∧ (fileExtension f.1 ≠ some "zst" ∨ f.1 ∈ c.used_files) := by
  unfold CompressionCache.cleanup
  rw [h]
  simp [List.mem_filter, imp_iff_not_or]

/-- C8: `cleanup` deletes exactly the `.zst` cache entries whose filename
was not marked used this run, and is a no-op with caching disabled; after
a run on a fresh enabled cache, the `(hash, level)` filename of every
compressed input is marked used, so a disk file carrying it survives
`cleanup`. -/
theorem cleanup_deletes_exactly_unused (hash : List Nat → String)
    (enc : Int → List Nat → List Nat) (c : CompressionCache) (disk : Disk)
    (inputs : List (List Nat)) (dir : String) (lvl : Int) (disk₀ : Disk)
    (data : List Nat) :
    (c.cache_dir = none → c.cleanup disk = disk) ∧
    (∀ d', c.cache_dir = some d' →
      ∀ f, f ∈ c.cleanup disk ↔
        f ∈ disk ∧ (fileExtension f.1 ≠ some "zst" ∨ f.1 ∈ c.used_files)) ∧
    (data ∈ inputs →
      cacheFilename (hash data) lvl ∈
        (compressRun hash enc inputs (CompressionCache.new (some dir) lvl, disk₀)).1.used_files ∧
      ∀ f, f ∈ (compressRun hash enc inputs (CompressionCache.new (some dir) lvl, disk₀)).2 →
        f.1 = cacheFilename (hash data) lvl →
        f ∈ (compressRun hash enc inputs (CompressionCache.new (some dir) lvl, disk₀)).1.cleanup
          ((compressRun hash enc inputs (CompressionCache.new (some dir) lvl, disk₀)).2)) := by
  refine ⟨cleanup_disabled c disk, fun d' h f => cleanup_mem c disk d' h f, fun hin => ?_⟩
  obtain ⟨g1, g2, g3, g4, g5⟩ :=
    compressRun_marks hash enc inputs (CompressionCache.new (some dir) lvl) disk₀ dir rfl
      (by simp [CompressionCache.new])
  have hmark := g5 data hin
  refine ⟨hmark, fun f hf hname => ?_⟩
  rw [cleanup_mem _ _ dir g1 f]
  exact ⟨hf, Or.inr (by rw [hname]; exact hmark)⟩

/-- C8 witness: the disabled no-op, the deletion characterisation at a
concrete file, and the marking of a processed input's filename. -/
theorem cleanup_deletes_exactly_unused_witness :
    ((CompressionCache.new none 3).cleanup [("a_3.zst", [1])] = [("a_3.zst", [1])]) ∧
    (("x_3.zst", ([9] : List Nat)) ∈
        (⟨some "cd", 3, ["x_3.zst"], 0, 0, 0, 0, []⟩ : CompressionCache).cleanup
          [("x_3.zst", [9]), ("y_3.zst", [8])] ↔
      ("x_3.zst", ([9] : List Nat)) ∈ ([("x_3.zst", [9]), ("y_3.zst", [8])] : Disk) ∧
        (fileExtension "x_3.zst" ≠ some "zst" ∨ "x_3.zst" ∈ ["x_3.zst"])) ∧
    cacheFilename ((fun _ => "h") [1]) 3 ∈
      (compressRun (fun _ => "h") (fun _ d => d) [[1]]
        (CompressionCache.new (some "cd") 3, [])).1.used_files :=
  ⟨(cleanup_deletes_exactly_unused (fun _ => "h") (fun _ d => d)
      (CompressionCache.new none 3) [("a_3.zst", [1])] [[1]] "cd" 3 [] [1]).1 rfl,
    (cleanup_deletes_exactly_unused (fun _ => "h") (fun _ d => d)
      (⟨some "cd", 3, ["x_3.zst"], 0, 0, 0, 0, []⟩ : CompressionCache)
      [("x_3.zst", [9]), ("y_3.zst", [8])] [[1]] "cd" 3 [] [1]).2.1 "cd" rfl _,
    ((cleanup_deletes_exactly_unused (fun _ => "h") (fun _ d => d)
      (CompressionCache.new (some "cd") 3) [] [[1]] "cd" 3 [] [1]).2.2 (by decide)).1⟩

/-- The code-point order on char lists is total. -/
theorem charListLeB_total : ∀ a b : List Char,
    charListLeB a b = true ∨ charListLeB b a = true := by
  intro a
  induction a with
  | nil => intro b; left; rfl
  | cons x xs ih =>
      intro b
      cases b with
      | nil => right; rfl
      | cons y ys =>
          simp only [charListLeB]
          rcases ih ys with h | h <;> split_ifs <;> simp_all

/-- The code-point order on char lists is transitive. -/
theorem charListLeB_trans : ∀ a b c : List Char,
    charListLeB a b = true → charListLeB b c = true → charListLeB a c = true := by
  intro a
  induction a with
  | nil => intro b c _ _; rfl
  | cons x xs ih =>
      intro b c hab hbc
      cases b with
      | nil => simp [charListLeB] at hab
      | cons y ys =>
          cases c with
          | nil => simp [charListLeB] at hbc
          | cons z zs =>
              simp only [charListLeB] at hab hbc ⊢
              split_ifs at hab hbc ⊢ <;>
                first
                | rfl
                | omega
                | exact ih ys zs hab hbc

instance : IsTotal FsEntry fsNameLe :=
  ⟨fun a b => charListLeB_total a.name.data b.name.data⟩

instance : IsTrans FsEntry fsNameLe :=
  ⟨fun a b c => charListLeB_trans a.name.data b.name.data c.name.data⟩

/-- The sort the scanners apply really sorts by name. -/
theorem sortByName_sorted (l : List FsEntry) :
    List.Pairwise fsNameLe (sortByName l) :=
  List.sorted_insertionSort fsNameLe l

/-- A pairwise-ordered name list passes the `namesChain` check. -/
theorem namesChain_of_pairwise : ∀ ns : List String,
    List.Pairwise (fun a b => strLeB a b = true) ns → namesChain ns = true := by
  intro ns
  induction ns with
  | nil => intro _; rfl
  | cons a rest ih =>
      intro hp
      cases rest with
      | nil => rfl
      | cons b rest' =>
          have hab : strLeB a b = true := (List.pairwise_cons.mp hp).1 b (by simp)
          have ht := ih (List.Pairwise.sublist (List.Sublist.cons a (List.Sublist.refl _)) hp)
          simp [namesChain, hab, ht]

/-- The names emitted by the general scanner are a sublist of the names of
its input listing (each entry yields at most one node, carrying its own
name, in order). -/
theorem scan_dir_sorted_names_sublist (zenc : Int → List Nat → List Nat) :
    ∀ l : List FsEntry,
      ((scan_dir_sorted zenc l).entries.map EmbedEntry.name).Sublist
        (l.map FsEntry.name) := by
  intro l
  induction l with
  | nil => simp [scan_dir_sorted]
  | cons e rest ih =>
      cases e with
      | file n c =>
          simp only [scan_dir_sorted]
          split_ifs with h
          · exact List.Sublist.cons _ ih
          · simpa [EmbedEntry.name, FsEntry.name] using List.Sublist.cons₂ n ih
      | dir n children =>
          simp only [scan_dir_sorted]
          split_ifs with h
          · exact List.Sublist.cons _ ih
          · simpa [EmbedEntry.name, FsEntry.name] using List.Sublist.cons₂ n ih

/-- As `scan_dir_sorted_names_sublist`, for the font scanner. -/
theorem scan_font_sorted_names_sublist (zenc : Int → List Nat → List Nat) :
    ∀ l : List FsEntry,
      ((scan_font_sorted zenc l).entries.map EmbedEntry.name).Sublist
        (l.map FsEntry.name) := by
  intro l
  induction l with
  | nil => simp [scan_font_sorted]
  | cons e rest ih =>
      cases e with
      | file n c =>
          simp only [scan_font_sorted]
          split_ifs with h h'
          · exact List.Sublist.cons _ ih
          · exact List.Sublist.cons _ ih
          · simpa [EmbedEntry.name, FsEntry.name] using List.Sublist.cons₂ n ih
      | dir n children =>
          simp only [scan_font_sorted]
          split_ifs with h h'
          · exact List.Sublist.cons _ ih
          · exact List.Sublist.cons _ ih
          · simpa [EmbedEntry.name, FsEntry.name] using List.Sublist.cons₂ n ih

/-- Scanning a name-sorted listing emits nodes in name-sorted order. -/
theorem scan_dir_sorted_chain (zenc : Int → List Nat → List Nat)
    (l : List FsEntry) (hp : List.Pairwise fsNameLe l) :
    namesChain ((scan_dir_sorted zenc l).entries.map EmbedEntry.name) = true := by
  apply namesChain_of_pairwise
  apply List.Pairwise.sublist (scan_dir_sorted_names_sublist zenc l)
  exact List.pairwise_map.mpr hp

/-- As `scan_dir_sorted_chain`, for the font scanner. -/
theorem scan_font_sorted_chain (zenc : Int → List Nat → List Nat)
    (l : List FsEntry) (hp : List.Pairwise fsNameLe l) :
    namesChain ((scan_font_sorted zenc l).entries.map EmbedEntry.name) = true := by
  apply namesChain_of_pairwise
  apply List.Pairwise.sublist (scan_font_sorted_names_sublist zenc l)
  exact List.pairwise_map.mpr hp

/-- Every `Dir` node the general scanner emits has name-sorted children,
recursively (each subdirectory's listing is sorted before it is scanned). -/
theorem scan_dir_sorted_treeSorted (zenc : Int → List Nat → List Nat) :
    ∀ l : List FsEntry, treeSorted (scan_dir_sorted zenc l).entries = true := by
  intro l
  induction l using scan_dir_sorted.induct zenc with
  | case1 => simp [scan_dir_sorted, treeSorted]
  | case2 n c rest h ih =>
      simp only [scan_dir_sorted, if_pos h]
      exact ih
  | case3 n c rest h ih =>
      simp only [scan_dir_sorted, if_neg h]
      simpa [treeSorted] using ih
  | case4 n children rest h ih =>
      simp only [scan_dir_sorted, if_pos h]
      exact ih
  | case5 n children rest h ih1 ih2 =>
      simp only [scan_dir_sorted, if_neg h]
      simp only [treeSorted, Bool.and_eq_true]
      exact ⟨⟨scan_dir_sorted_chain zenc _ (sortByName_sorted children), ih2⟩, ih1⟩

/-- As `scan_dir_sorted_treeSorted`, for the font scanner. -/
theorem scan_font_sorted_treeSorted (zenc : Int → List Nat → List Nat) :
    ∀ l : List FsEntry, treeSorted (scan_font_sorted zenc l).entries = true := by
  intro l
  induction l using scan_font_sorted.induct zenc
  all_goals simp only [scan_font_sorted]
  all_goals try split_ifs
  all_goals simp_all [treeSorted, Bool.and_eq_true]
  all_goals exact scan_font_sorted_chain zenc _ (sortByName_sorted _)

/-- C7: both embeds list their entries in lexicographic name order at
every level of the emitted tree, whatever order the filesystem lists the
directories in. -/
theorem embed_entries_sorted (zenc : Int → List Nat → List Nat)
    (fs : List FsEntry) :
    allLevelsSorted (scan_dir_entries zenc fs).entries = true ∧
    allLevelsSorted (scan_font_entries zenc fs).entries = true := by
  unfold allLevelsSorted scan_dir_entries scan_font_entries
  refine ⟨?_, ?_⟩ <;> rw [Bool.and_eq_true] <;> constructor
  · exact scan_dir_sorted_chain zenc _ (sortByName_sorted fs)
  · exact scan_dir_sorted_treeSorted zenc _
  · exact scan_font_sorted_chain zenc _ (sortByName_sorted fs)
  · exact scan_font_sorted_treeSorted zenc _

/-- A recorded failure whose reason is a download failure. -/
def DownloadFailure (f : PackageSpec × String) : Prop :=
  ∃ e, f.2 = "download failed: " ++ e

/-- A recorded failure whose reason text contains the display of every
path the resolver searched for this spec (the data-directory candidate
when a data directory is configured, and the cache candidate). -/
def NotFoundComplete (dataDir : Option FsPath) (cacheDir : FsPath)
    (f : PackageSpec × String) : Prop :=
  (∀ data, dataDir = some data →
    (pathDisplay (f.1.package_dir data)).data <:+: f.2.data) ∧
  (pathDisplay (f.1.package_dir cacheDir)).data <:+: f.2.data

/-- Every failure `resolve_packages` records is one of the two shapes. -/
def FailureShape (dataDir : Option FsPath) (cacheDir : FsPath)
    (f : PackageSpec × String) : Prop :=
  DownloadFailure f ∨ NotFoundComplete dataDir cacheDir f

/-- The loop invariant: the seen set is exactly the resolved specs plus
the failed specs (as a permutation), without duplicates. -/
def ResolveInv (st : ResolveState) : Prop :=
  st.seen.Perm (st.resolved.map (·.spec) ++ st.failed.map (·.1)) ∧
  st.seen.Nodup

/-- A left summand embeds into a string append. -/
theorem str_infix_append_left (x y : String) : x.data <:+: (x ++ y).data := by
  rw [String.data_append]
  exact (List.prefix_append _ _).isInfix

/-- A right summand embeds into a string append. -/
theorem str_infix_append_right (x y : String) : y.data <:+: (x ++ y).data := by
  rw [String.data_append]
  exact (List.suffix_append _ _).isInfix

/-- Every joined element embeds into the join. -/
theorem joinSep_mem_within (sep : String) :
    ∀ (l : List String) (x : String), x ∈ l → x.data <:+: (joinSep sep l).data := by
  intro l
  induction l with
  | nil => simp
  | cons a rest ih =>
      intro x hx
      cases rest with
      | nil =>
          rw [List.mem_singleton.mp hx]
          exact List.infix_refl _
      | cons b rest' =>
          rcases List.mem_cons.mp hx with rfl | hx'
          · exact List.IsInfix.trans (str_infix_append_left x sep)
              (str_infix_append_left (x ++ sep) (joinSep sep (b :: rest')))
          · exact List.IsInfix.trans (ih x hx')
              (str_infix_append_right (a ++ sep) (joinSep sep (b :: rest')))

/-- Every failure's `"{pkg}: {reason}"` line embeds into the aggregate
error string. -/
theorem failedMessage_infix_aggregate (failed : List (PackageSpec × String))
    (f : PackageSpec × String) (hf : f ∈ failed) :
    (failedMessage f).data <:+: (aggregateError failed).data := by
  unfold aggregateError
  exact List.IsInfix.trans
    (joinSep_mem_within "\n  - " (failed.map failedMessage) (failedMessage f)
      (List.mem_map_of_mem _ hf))
    (str_infix_append_right _ _)

/-- Every searched path's display embeds into the not-found reason. -/
theorem notFound_path_within (searched : List FsPath) (p : FsPath)
    (hp : p ∈ searched) :
    (pathDisplay p).data <:+:
      ("not found, searched:\n" ++
        joinSep "\n" (searched.map (fun q => "      " ++ pathDisplay q))).data := by
  refine List.IsInfix.trans ?_ (str_infix_append_right "not found, searched:\n"
    (joinSep "\n" (searched.map (fun q => "      " ++ pathDisplay q))))
  refine List.IsInfix.trans (str_infix_append_right "      " (pathDisplay p)) ?_
  exact joinSep_mem_within "\n" (searched.map (fun q => "      " ++ pathDisplay q))
    ("      " ++ pathDisplay p) (List.mem_map_of_mem _ hp)

/-- One resolution step for a not-yet-seen spec: the seen set and the
dependency map are untouched, and either the spec is resolved at some path
(its dependencies become the enqueued specs, no failure recorded) or one
well-shaped failure for this spec is recorded (nothing enqueued). -/
theorem resolveStep_spec (dataDir : Option FsPath) (cacheDir : FsPath)
    (refresh : Bool) (st : ResolveState) (pkg : PackageSpec) :
    (resolveStep dataDir cacheDir refresh st pkg).1.seen = st.seen ∧
    (resolveStep dataDir cacheDir refresh st pkg).1.world.deps = st.world.deps ∧
    ((∃ path, (resolveStep dataDir cacheDir refresh st pkg).1.resolved
          = st.resolved ++ [⟨pkg, path⟩] ∧
        (resolveStep dataDir cacheDir refresh st pkg).1.failed = st.failed ∧
        (resolveStep dataDir cacheDir refresh st pkg).2 = st.world.deps path) ∨
     (∃ msg, (resolveStep dataDir cacheDir refresh st pkg).1.failed
          = st.failed ++ [(pkg, msg)] ∧
        (resolveStep dataDir cacheDir refresh st pkg).1.resolved = st.resolved ∧
        (resolveStep dataDir cacheDir refresh st pkg).2 = [] ∧
        FailureShape dataDir cacheDir (pkg, msg))) := by
  unfold resolveStep download_and_extract
  cases dataDir with
  | none =>
      dsimp only
      split_ifs with h1 h2 h3 h4
      · exact ⟨rfl, rfl, Or.inl ⟨_, rfl, rfl, rfl⟩⟩
      · exact ⟨rfl, rfl, Or.inl ⟨_, rfl, rfl, rfl⟩⟩
      · exact ⟨rfl, rfl, Or.inl ⟨_, rfl, rfl, rfl⟩⟩
      · exact ⟨rfl, rfl, Or.inr ⟨_, rfl, rfl, rfl, Or.inl ⟨_, rfl⟩⟩⟩
      · refine ⟨rfl, rfl, Or.inr ⟨_, rfl, rfl, rfl, Or.inr ⟨?_, ?_⟩⟩⟩
        · intro data hd
          exact absurd hd (by simp)
        · exact notFound_path_within [pkg.package_dir cacheDir] _ (by simp)
  | some data =>
      dsimp only
      by_cases h0 : st.world.pathExists (pkg.package_dir data) = true
      · rw [if_pos h0]
        exact ⟨rfl, rfl, Or.inl ⟨_, rfl, rfl, rfl⟩⟩
      · rw [if_neg h0]
        split_ifs with h1 h2 h3 h4
        · exact ⟨rfl, rfl, Or.inl ⟨_, rfl, rfl, rfl⟩⟩
        · exact ⟨rfl, rfl, Or.inl ⟨_, rfl, rfl, rfl⟩⟩
        · exact ⟨rfl, rfl, Or.inl ⟨_, rfl, rfl, rfl⟩⟩
        · exact ⟨rfl, rfl, Or.inr ⟨_, rfl, rfl, rfl, Or.inl ⟨_, rfl⟩⟩⟩
        · refine ⟨rfl, rfl, Or.inr ⟨_, rfl, rfl, rfl, Or.inr ⟨?_, ?_⟩⟩⟩
          · intro data' hd'
            rw [Option.some.injEq] at hd'
            subst hd'
            exact notFound_path_within _ _ (by simp)
          · exact notFound_path_within _ _ (by simp)

/-- The work loop on an empty queue returns the state unchanged. -/
theorem resolveLoop_nil (dataDir : Option FsPath) (cacheDir : FsPath)
    (refresh : Bool) (fuel : Nat) (st : ResolveState) :
    resolveLoop dataDir cacheDir refresh fuel st [] = some st := by
  cases fuel <;> rfl

/-- The main loop invariants of `resolve_packages`: failures only
accumulate and each new one is well-shaped; the seen set stays a
duplicate-free enumeration of resolved-plus-failed specs; every queued
spec ends up seen; the dependency map never changes; and if every
dependency of an already-resolved package is queued or seen, then at the
end every dependency of every resolved package has been seen. -/
theorem resolveLoop_spec (dataDir : Option FsPath) (cacheDir : FsPath)
    (refresh : Bool) :
    ∀ (fuel : Nat) (st : ResolveState) (queue : List PackageSpec)
      (st' : ResolveState),
      resolveLoop dataDir cacheDir refresh fuel st queue = some st' →
      (∀ f ∈ st'.failed, f ∈ st.failed ∨ FailureShape dataDir cacheDir f) ∧
      (ResolveInv st → ResolveInv st') ∧
      (∀ p ∈ queue, p ∈ st'.seen) ∧
      (∀ p ∈ st.seen, p ∈ st'.seen) ∧
      st'.world.deps = st.world.deps ∧
      ((∀ r ∈ st.resolved, ∀ c ∈ st.world.deps r.path, c ∈ queue ∨ c ∈ st.seen) →
        ∀ r ∈ st'.resolved, ∀ c ∈ st.world.deps r.path, c ∈ st'.seen) := by
  intro fuel
  induction fuel with
  | zero =>
      intro st queue st' h
      cases queue with
      | nil =>
          rw [resolveLoop_nil] at h
          injection h with h
          subst h
          refine ⟨fun f hf => Or.inl hf, fun hi => hi, by simp, fun p hp => hp, rfl, ?_⟩
          intro hdep r hr c hc
          rcases hdep r hr c hc with h' | h'
          · exact absurd h' (List.not_mem_nil c)
          · exact h'
      | cons p rest => simp [resolveLoop] at h
  | succ fuel ih =>
      intro st queue st' h
      cases queue with
      | nil =>
          rw [resolveLoop_nil] at h
          injection h with h
          subst h
          refine ⟨fun f hf => Or.inl hf, fun hi => hi, by simp, fun p hp => hp, rfl, ?_⟩
          intro hdep r hr c hc
          rcases hdep r hr c hc with h' | h'
          · exact absurd h' (List.not_mem_nil c)
          · exact h'
      | cons pkg rest =>
          simp only [resolveLoop] at h
          by_cases hseen : pkg ∈ st.seen
          · rw [if_pos hseen] at h
            obtain ⟨A, B, C, D, E, F⟩ := ih st rest st' h
            refine ⟨A, B, ?_, D, E, ?_⟩
            · intro p hp
              rcases List.mem_cons.mp hp with rfl | hp'
              · exact D _ hseen
              · exact C p hp'
            · intro hdep
              refine F ?_
              intro r hr c hc
              rcases hdep r hr c hc with hc' | hc'
              · rcases List.mem_cons.mp hc' with rfl | h'
                · exact Or.inr hseen
                · exact Or.inl h'
              · exact Or.inr hc'
          · rw [if_neg hseen] at h
            obtain ⟨s1, s2, s3⟩ :=
              resolveStep_spec dataDir cacheDir refresh { st with seen := pkg :: st.seen } pkg
            have h' : resolveLoop dataDir cacheDir refresh fuel
                (resolveStep dataDir cacheDir refresh { st with seen := pkg :: st.seen } pkg).1
                (rest ++
                  (resolveStep dataDir cacheDir refresh { st with seen := pkg :: st.seen } pkg).2) =
                some st' := h
            obtain ⟨A, B, C, D, E, F⟩ := ih _ _ st' h'
            have hseen1 : (resolveStep dataDir cacheDir refresh
                { st with seen := pkg :: st.seen } pkg).1.seen = pkg :: st.seen := s1
            refine ⟨?_, ?_, ?_, ?_, ?_, ?_⟩
            · -- failures accumulate, new ones well-shaped
              intro f hf
              rcases A f hf with hf' | hshape
              · rcases s3 with ⟨path, hres, hfail, hdeps⟩ | ⟨msg, hfail, hres, hdeps, hshape'⟩
                · rw [hfail] at hf'
                  exact Or.inl hf'
                · rw [hfail] at hf'
                  rcases List.mem_append.mp hf' with h1 | h1
                  · exact Or.inl h1
                  · rw [List.mem_singleton.mp h1]
                    exact Or.inr hshape'
              · exact Or.inr hshape
            · -- the permutation invariant
              intro hinv
              refine B ?_
              obtain ⟨hperm, hnd⟩ := hinv
              constructor
              · rw [hseen1]
                rcases s3 with ⟨path, hres, hfail, hdeps⟩ | ⟨msg, hfail, hres, hdeps, hshape'⟩
                · rw [hres, hfail]
                  simp only [List.map_append, List.map_cons, List.map_nil]
                  refine (hperm.cons pkg).trans ?_
                  have hmid : (st.resolved.map (·.spec) ++ pkg :: st.failed.map (·.1)).Perm
                      (pkg :: (st.resolved.map (·.spec) ++ st.failed.map (·.1))) :=
                    List.perm_middle
                  refine hmid.symm.trans ?_
                  simp [List.append_assoc]
                · rw [hres, hfail]
                  simp only [List.map_append, List.map_cons, List.map_nil]
                  refine (hperm.cons pkg).trans ?_
                  rw [← List.append_assoc]
                  exact (List.perm_append_singleton pkg _).symm
              · rw [hseen1]
                exact List.nodup_cons.mpr ⟨hseen, hnd⟩
            · -- every queued spec ends up seen
              intro p hp
              rcases List.mem_cons.mp hp with rfl | hp'
              · exact D p (by rw [hseen1]; exact List.mem_cons_self _ _)
              · exact C p (List.mem_append_left _ hp')
            · -- seen is monotone
              intro p hp
              exact D p (by rw [hseen1]; exact List.mem_cons_of_mem _ hp)
            · -- the dependency map never changes
              rw [E]
              exact s2
            · -- dependencies of resolved packages end up seen
              intro hdep r hr c hc
              have hdeps_eq : (resolveStep dataDir cacheDir refresh
                  { st with seen := pkg :: st.seen } pkg).1.world.deps = st.world.deps := s2
              refine F ?_ r hr c (by rw [hdeps_eq]; exact hc)
              intro r' hr' c' hc'
              rw [hdeps_eq] at hc'
              rcases s3 with ⟨path, hres, hfail, hdeps⟩ | ⟨msg, hfail, hres, hdeps, hshape'⟩
              · rw [hres] at hr'
                rcases List.mem_append.mp hr' with h1 | h1
                · rcases hdep r' h1 c' hc' with h2 | h2
                  · rcases List.mem_cons.mp h2 with rfl | h3
                    · exact Or.inr (by rw [hseen1]; exact List.mem_cons_self _ _)
                    · exact Or.inl (List.mem_append_left _ h3)
                  · exact Or.inr (by rw [hseen1]; exact List.mem_cons_of_mem _ h2)
                · rw [List.mem_singleton.mp h1] at hc'
                  refine Or.inl (List.mem_append_right _ ?_)
                  rw [hdeps]
                  exact hc'
              · rw [hres] at hr'
                rcases hdep r' hr' c' hc' with h2 | h2
                · rcases List.mem_cons.mp h2 with rfl | h3
                  · exact Or.inr (by rw [hseen1]; exact List.mem_cons_self _ _)
                  · exact Or.inl (List.mem_append_left _ h3)
                · exact Or.inr (by rw [hseen1]; exact List.mem_cons_of_mem _ h2)

/-- C3: `resolve_packages` returns an error exactly when at least one
per-package failure was recorded; with no failures it returns all resolved
packages; and the error is the aggregate string in which every failed
spec's `"{pkg}: {reason}"` line occurs, each failure being either a
download failure or a not-found whose message lists every searched path
(all of which therefore occur in the error string). -/
theorem resolve_packages_error_reporting (fuel : Nat) (w : World)
    (packages : List PackageSpec) (dataDir : Option FsPath)
    (cacheDir : FsPath) (refresh : Bool)
    (r : Except String (List ResolvedPackage)) (st : ResolveState)
    (h : resolve_packages fuel w packages dataDir cacheDir refresh = some (r, st)) :
    ((∃ e, r = .error e) ↔ st.failed ≠ []) ∧
    (st.failed = [] → r = .ok st.resolved) ∧
    (∀ e, r = .error e →
      e = aggregateError st.failed ∧
      ∀ f ∈ st.failed,
        (failedMessage f).data <:+: e.data ∧
        (DownloadFailure f ∨
          ((∀ data, dataDir = some data →
              (pathDisplay (f.1.package_dir data)).data <:+: e.data) ∧
            (pathDisplay (f.1.package_dir cacheDir)).data <:+: e.data))) := by
  unfold resolve_packages at h
  by_cases hemp : packages.isEmpty
  · rw [if_pos hemp] at h
    injection h with h
    injection h with h1 h2
    subst h1
    subst h2
    refine ⟨by simp [ResolveState.init], fun _ => rfl, fun e he => absurd he (by simp)⟩
  · rw [if_neg hemp] at h
    cases hloop : resolveLoop dataDir cacheDir refresh fuel (ResolveState.init w) packages with
    | none =>
        rw [hloop] at h
        exact absurd h (by simp)
    | some st0 =>
        rw [hloop] at h
        dsimp only at h
        obtain ⟨A, B, C, D, E, F⟩ := resolveLoop_spec dataDir cacheDir refresh fuel _ _ _ hloop
        by_cases hfail : st0.failed.isEmpty
        · rw [if_pos hfail] at h
          injection h with h
          injection h with h1 h2
          subst h1
          subst h2
          refine ⟨?_, fun _ => rfl, fun e he => absurd he (by simp)⟩
          constructor
          · rintro ⟨e, he⟩
            exact absurd he (by simp)
          · intro hne
            exact absurd (List.isEmpty_iff.mp hfail) hne
        · rw [if_neg hfail] at h
          injection h with h
          injection h with h1 h2
          subst h1
          subst h2
          have hne : st0.failed ≠ [] := by
            simpa [List.isEmpty_iff] using hfail
          refine ⟨⟨fun _ => hne, fun _ => ⟨_, rfl⟩⟩, fun h0 => absurd h0 hne, ?_⟩
          intro e he
          have he' : e = aggregateError st0.failed := by
            injection he with he'
            exact he'.symm
          subst he'
          refine ⟨rfl, ?_⟩
          intro f hf
          have hlift : f.2.data <:+: (aggregateError st0.failed).data :=
            List.IsInfix.trans (str_infix_append_right (f.1.display ++ ": ") f.2)
              (failedMessage_infix_aggregate _ f hf)
          refine ⟨failedMessage_infix_aggregate _ f hf, ?_⟩
          rcases A f hf with hin | hshape
          · exact absurd hin (List.not_mem_nil f)
          · rcases hshape with hd | ⟨hnf1, hnf2⟩
            · exact Or.inl hd
            · refine Or.inr ⟨?_, hnf2.trans hlift⟩
              intro data hd'
              exact (hnf1 data hd').trans hlift

/-- A resolver world for the C3 witness: nothing on disk, no network. -/
def w3 : World :=
  ⟨fun _ => false, fun _ => false, fun _ => "net", fun _ => []⟩

/-- The spec the C3 witness fails to resolve (`@local` is not
downloadable). -/
def pL3 : PackageSpec :=
  ⟨"local", "mypkg", "0.1.0"⟩

/-- The not-found reason recorded for `pL3`. -/
def msg3 : String :=
  "not found, searched:\n      data/local/mypkg/0.1.0\n      cache/local/mypkg/0.1.0"

/-- The result and state of the C3 witness run. -/
def res3 : Option (Except String (List ResolvedPackage) × ResolveState) :=
  resolve_packages 5 w3 [pL3] (some ["data"]) ["cache"] false

/-- The returned value of the C3 witness run. -/
def r3 : Except String (List ResolvedPackage) :=
  (res3.getD (.ok [], ResolveState.init w3)).1

/-- The final state of the C3 witness run. -/
def st3 : ResolveState :=
  (res3.getD (.ok [], ResolveState.init w3)).2

/-- C3 witness: the not-found run records a failure and its
`"{pkg}: {reason}"` line occurs in the aggregate error string. -/
theorem resolve_packages_error_reporting_witness :
    st3.failed ≠ [] ∧
    (failedMessage (pL3, msg3)).data <:+: (aggregateError st3.failed).data := by
  have h := resolve_packages_error_reporting 5 w3 [pL3] (some ["data"]) ["cache"] false
    r3 st3 rfl
  refine ⟨h.1.mp ⟨aggregateError st3.failed, rfl⟩, ?_⟩
  exact ((h.2.2 (aggregateError st3.failed) rfl).2 (pL3, msg3) (by decide)).1

/-- C5: whenever `resolve_packages` succeeds, the output contains each
distinct spec at most once (no duplicate resolutions — the seen-set
collapses diamonds), every requested spec appears exactly once, and every
dependency of every resolved package appears exactly once — so a spec two
packages both depend on is resolved a single time. -/
theorem resolve_packages_each_spec_once (fuel : Nat) (w : World)
    (packages : List PackageSpec) (dataDir : Option FsPath)
    (cacheDir : FsPath) (refresh : Bool) (res : List ResolvedPackage)
    (st : ResolveState)
    (h : resolve_packages fuel w packages dataDir cacheDir refresh =
      some (.ok res, st)) :
    (res.map (·.spec)).Nodup ∧
    (∀ p ∈ packages, (res.map (·.spec)).count p = 1) ∧
    (∀ rp ∈ res, ∀ c ∈ w.deps rp.path, (res.map (·.spec)).count c = 1) := by
  unfold resolve_packages at h
  by_cases hemp : packages.isEmpty
  · rw [if_pos hemp] at h
    injection h with h
    injection h with h1 h2
    have hres : res = [] := by
      injection h1 with h1
      exact h1.symm
    subst hres
    refine ⟨by simp, ?_, by simp⟩
    intro p hp
    rw [List.isEmpty_iff.mp hemp] at hp
    exact absurd hp (List.not_mem_nil p)
  · rw [if_neg hemp] at h
    cases hloop : resolveLoop dataDir cacheDir refresh fuel (ResolveState.init w) packages with
    | none =>
        rw [hloop] at h
        exact absurd h (by simp)
    | some st0 =>
        rw [hloop] at h
        dsimp only at h
        obtain ⟨A, B, C, D, E, F⟩ := resolveLoop_spec dataDir cacheDir refresh fuel _ _ _ hloop
        by_cases hfail : st0.failed.isEmpty
        · rw [if_pos hfail] at h
          injection h with h
          injection h with h1 h2
          have hres : res = st0.resolved := by
            injection h1 with h1
            exact h1.symm
          subst hres
          have hinv : ResolveInv st0 :=
            B ⟨by simp [ResolveState.init], by simp [ResolveState.init]⟩
          obtain ⟨hperm, hnd⟩ := hinv
          rw [List.isEmpty_iff.mp hfail] at hperm
          simp only [List.map_nil, List.append_nil] at hperm
          have hndres : (st0.resolved.map (·.spec)).Nodup := hperm.nodup hnd
          refine ⟨hndres, ?_, ?_⟩
          · intro p hp
            exact List.count_eq_one_of_mem hndres (hperm.mem_iff.mp (C p hp))
          · intro rp hrp c hc
            have hF := F (fun r hr => absurd hr (List.not_mem_nil r))
            have hcseen := hF rp hrp c hc
            exact List.count_eq_one_of_mem hndres (hperm.mem_iff.mp hcseen)
        · rw [if_neg hfail] at h
          injection h with h
          injection h with h1 h2
          exact absurd h1 (by simp)

/-- Specs for the C5 diamond witness. -/
def pA5 : PackageSpec := ⟨"preview", "a", "1"⟩

/-- Second dependent of the diamond. -/
def pB5 : PackageSpec := ⟨"preview", "b", "1"⟩

/-- The shared dependency of the diamond. -/
def pC5 : PackageSpec := ⟨"preview", "c", "1"⟩

/-- A world in which nothing is on disk, every download succeeds, and
both `pA5` and `pB5` depend on `pC5`. -/
def wD5 : World :=
  ⟨fun _ => false, fun _ => true, fun _ => "net",
    fun p =>
      if p == pA5.package_dir ["cache"] || p == pB5.package_dir ["cache"] then [pC5]
      else []⟩

/-- The C5 witness run. -/
def resolveD5 : Option (Except String (List ResolvedPackage) × ResolveState) :=
  resolve_packages 10 wD5 [pA5, pB5] none ["cache"] false

/-- The resolved output of the C5 witness run. -/
def resD5 : List ResolvedPackage :=
  [⟨pA5, pA5.package_dir ["cache"]⟩, ⟨pB5, pB5.package_dir ["cache"]⟩,
    ⟨pC5, pC5.package_dir ["cache"]⟩]

/-- The final state of the C5 witness run. -/
def stD5 : ResolveState :=
  (resolveD5.getD (.ok [], ResolveState.init wD5)).2

/-- C5 witness: in the diamond, the output has no duplicate specs and the
shared dependency `pC5` appears exactly once. -/
theorem resolve_packages_each_spec_once_witness :
    (resD5.map (·.spec)).Nodup ∧ (resD5.map (·.spec)).count pC5 = 1 := by
  have h := resolve_packages_each_spec_once 10 wD5 [pA5, pB5] none ["cache"] false
    resD5 stD5 rfl
  exact ⟨h.1, h.2.2 ⟨pA5, pA5.package_dir ["cache"]⟩ (by decide) pC5 (by decide)⟩

/-- The spec of the C1 scenario: a `@preview` package. -/
def pC1 : PackageSpec := ⟨"preview", "x", "1.0.0"⟩

/-- The C1 world: the package is already present in the cache directory,
and every attempted network download would fail. -/
def wC1 : World :=
  ⟨fun p => p == pC1.package_dir ["cache"], fun _ => false,
    fun _ => "network unreachable", fun _ => []⟩

/-- C1: with `refresh = true` and the package already cached, resolution
does NOT re-download.  `resolve_packages` falls past the cache check into
`download_and_extract`, whose post-lock `dest.exists()` early return fires
because the destination is the pre-existing cached copy; the run succeeds
with the stale cached path, performs zero network fetches (the log of
issued fetches is empty even though every download in this world would
fail), and the cached copy is never replaced — contradicting the claimed
forced re-download. -/
theorem resolve_refresh_serves_cache_without_download :
    (resolve_packages 5 wC1 [pC1] none ["cache"] true).map
      (fun r => (r.1, r.2.downloads, r.2.resolved)) =
    some (.ok [⟨pC1, ["cache", "preview", "x", "1.0.0"]⟩], [],
      [⟨pC1, ["cache", "preview", "x", "1.0.0"]⟩]) := by
  rfl
